import Mathlib

/-!
Verification of the NewsTrendsSummary analytical pipeline
(src/process/dedupe.py, cluster.py, score.py, summarize.py).

Strings are modelled as lists of characters (Python str values), Python
floats as rational numbers, Python dicts as association lists, and Python
sets as lists queried by membership.  The sha256 digest used by the
deduplicator only serves as an identity key, so it is modelled as the
identity on the hashed text (a collision-free hash).  Standard-library
string and URL helpers (str.strip, str.lower, str.split,
urllib.parse.urlsplit, parse_qsl, urlencode, urlunsplit, quote_plus,
unquote) are modelled after CPython for the ASCII inputs the pipeline
handles; Unicode-only behaviours (non-ASCII case folding, multi-byte
percent sequences) are modelled byte by byte and noted at the definition.
-/

/- ## Python string primitives -/

/-- Characters treated as whitespace by Python str.strip and str.split
(ASCII subset: space, tab, newline, carriage return, vertical tab,
form feed). -/
def isPySpace (c : Char) : Bool :=
  c = ' ' ∨ c = '\t' ∨ c = '\n' ∨ c = '\r' ∨ c = '\x0b' ∨ c = '\x0c'

/-- Python str.strip with no arguments: remove leading and trailing
whitespace. -/
def pyStrip (s : List Char) : List Char :=
  (((s.dropWhile isPySpace).reverse.dropWhile isPySpace)).reverse

/-- Python str.lower, ASCII case folding (the URLs and titles handled by
the pipeline are ASCII). -/
def lowerStr (s : List Char) : List Char :=
  s.map Char.toLower

/-- Helper for pySplitWs: accumulate the current word (in reverse). -/
def pySplitWsAux : List Char → List Char → List (List Char)
  | [], acc => if acc = [] then [] else [acc.reverse]
  | c :: rest, acc =>
    if isPySpace c then
      if acc = [] then pySplitWsAux rest []
      else acc.reverse :: pySplitWsAux rest []
    else pySplitWsAux rest (c :: acc)

/-- Python str.split with no arguments: split on runs of whitespace,
discarding empty fields. -/
def pySplitWs (s : List Char) : List (List Char) :=
  pySplitWsAux s []

/-- Python list slicing l[:k] for an int k: a nonnegative stop takes a
prefix, a negative stop counts from the end (clamped at zero). -/
def pySliceTo {α : Type} (l : List α) (k : ℤ) : List α :=
  if 0 ≤ k then l.take k.toNat else l.take (l.length - (-k).toNat)

/-- Python substring test needle in hay, at the start of hay. -/
def startsWithSub : List Char → List Char → Bool
  | _, [] => true
  | [], _ :: _ => false
  | h :: hs, n :: ns => h = n ∧ startsWithSub hs ns

/-- Python substring test needle in hay (anywhere). -/
def isSubstring (hay needle : List Char) : Bool :=
  if startsWithSub hay needle then true
  else
    match hay with
    | [] => false
    | _ :: t => isSubstring t needle

/- ## URL machinery (urllib.parse, CPython 3.12 semantics) -/

/-- Scheme characters accepted by urlsplit after the leading letter:
letters, digits, plus, minus, dot. -/
def isSchemeChar (c : Char) : Bool :=
  c.isAlpha ∨ c.isDigit ∨ c = '+' ∨ c = '-' ∨ c = '.'

/-- WHATWG C0-control-or-space class stripped from the front of a URL by
urlsplit. -/
def isC0OrSpace (c : Char) : Bool :=
  c.toNat ≤ 32

/-- Result of urllib.parse.urlsplit. -/
structure UrlSplitParts where
  scheme : List Char
  netloc : List Char
  path : List Char
  query : List Char
  fragment : List Char
deriving DecidableEq, Repr

/-- urllib.parse.urlsplit.  Steps, as in CPython: lstrip
C0-controls/space, remove tab/CR/LF, detect scheme (leading ASCII letter
then scheme chars before a colon, lowercased), take the netloc after a
double slash up to a slash / question mark / hash, split off the
fragment at the first hash, split off the query at the first question
mark.  The bracket-validation errors of CPython are out of scope: the
pipeline feeds no bracketed hosts. -/
def pyUrlsplit (url : List Char) : UrlSplitParts :=
  let url := (url.dropWhile isC0OrSpace).filter
    (fun c => ¬ (c = '\t' ∨ c = '\r' ∨ c = '\n'))
  let schemePre := url.takeWhile (fun c => c ≠ ':')
  let hasScheme : Bool :=
    decide (schemePre.length < url.length) &&
      (match schemePre with
       | c :: rest => c.isAlpha && rest.all isSchemeChar
       | [] => false)
  let scheme := if hasScheme then lowerStr schemePre else []
  let rest := if hasScheme then url.drop (schemePre.length + 1) else url
  let hasNetloc := rest.take 2 = ['/', '/']
  let afterSlashes := if hasNetloc then rest.drop 2 else rest
  let netloc :=
    if hasNetloc then
      afterSlashes.takeWhile (fun c => ¬ (c = '/' ∨ c = '?' ∨ c = '#'))
    else []
  let rest2 :=
    if hasNetloc then
      afterSlashes.dropWhile (fun c => ¬ (c = '/' ∨ c = '?' ∨ c = '#'))
    else rest
  let beforeFrag := rest2.takeWhile (fun c => c ≠ '#')
  let fragment :=
    match rest2.dropWhile (fun c => c ≠ '#') with
    | [] => []
    | _ :: t => t
  let path := beforeFrag.takeWhile (fun c => c ≠ '?')
  let query :=
    match beforeFrag.dropWhile (fun c => c ≠ '?') with
    | [] => []
    | _ :: t => t
  ⟨scheme, netloc, path, query, fragment⟩

/-- urllib.parse.urlunsplit. -/
def pyUrlunsplit (scheme netloc path query fragment : List Char) : List Char :=
  let url := path
  let url :=
    if netloc ≠ [] ∨ (url ≠ [] ∧ url.take 2 = ['/', '/']) then
      '/' :: '/' :: netloc ++ (if url ≠ [] ∧ url.head? ≠ some '/' then '/' :: url else url)
    else url
  let url := if scheme ≠ [] then scheme ++ ':' :: url else url
  let url := if query ≠ [] then url ++ '?' :: query else url
  let url := if fragment ≠ [] then url ++ '#' :: fragment else url
  url

/-- Hexadecimal value of a digit character, if any. -/
def hexVal? (c : Char) : Option ℕ :=
  if c.isDigit then some (c.toNat - 48)
  else if 'A' ≤ c ∧ c ≤ 'F' then some (c.toNat - 55)
  else if 'a' ≤ c ∧ c ≤ 'f' then some (c.toNat - 87)
  else none

/-- Percent-decoding of urllib.parse.unquote: a percent sign followed by
two hex digits decodes to that byte; malformed escapes are kept
verbatim.  Bytes are mapped straight to code points — exact for the
ASCII data the pipeline carries (CPython additionally reassembles
multi-byte UTF-8 runs). -/
def percentDecode : List Char → List Char
  | [] => []
  | '%' :: h1 :: h2 :: rest =>
    match hexVal? h1, hexVal? h2 with
    | some a, some b => Char.ofNat (16 * a + b) :: percentDecode rest
    | _, _ => '%' :: percentDecode (h1 :: h2 :: rest)
  | '%' :: rest => '%' :: percentDecode rest
  | c :: rest => c :: percentDecode rest

/-- Python unquote_plus as used by parse_qsl: plus signs become spaces,
then percent escapes are decoded. -/
def unquotePlus (s : List Char) : List Char :=
  percentDecode (s.map (fun c => if c = '+' then ' ' else c))

/-- Upper-case hexadecimal digit for a value below 16. -/
def hexDigitUpper (n : ℕ) : Char :=
  if n < 10 then Char.ofNat (48 + n) else Char.ofNat (55 + n)

/-- UTF-8 encoding of a code point as a byte list. -/
def utf8Bytes (n : ℕ) : List ℕ :=
  if n < 128 then [n]
  else if n < 2048 then [192 + n / 64, 128 + n % 64]
  else if n < 65536 then [224 + n / 4096, 128 + n / 64 % 64, 128 + n % 64]
  else [240 + n / 262144, 128 + n / 4096 % 64, 128 + n / 64 % 64, 128 + n % 64]

/-- Characters urllib.parse never quotes: ASCII letters, digits,
underscore, dot, minus, tilde. -/
def isAlwaysSafe (c : Char) : Bool :=
  c.isAlpha ∨ c.isDigit ∨ c = '_' ∨ c = '.' ∨ c = '-' ∨ c = '~'

/-- Per-character behaviour of quote_plus with empty safe string: safe
characters pass through, space becomes plus, anything else is
percent-encoded from its UTF-8 bytes with upper-case hex. -/
def quotePlusChar (c : Char) : List Char :=
  if isAlwaysSafe c then [c]
  else if c = ' ' then ['+']
  else (utf8Bytes c.toNat).map
    (fun b => ['%', hexDigitUpper (b / 16), hexDigitUpper (b % 16)]) |>.flatten

/-- Python quote_plus with the default empty safe set. -/
def quotePlus (s : List Char) : List Char :=
  (s.map quotePlusChar).flatten

/-- urllib.parse.parse_qsl with keep_blank_values=True and the default
ampersand separator: split the query on ampersands, skip empty fields,
split each field at the first equals sign (a missing value becomes the
empty string), and unquote names and values. -/
def parseQsl (qs : List Char) : List (List Char × List Char) :=
  let queryArgs := if qs = [] then [] else qs.splitOn '&'
  queryArgs.filterMap (fun nv =>
    if nv = [] then none
    else
      let name := nv.takeWhile (fun c => c ≠ '=')
      match nv.dropWhile (fun c => c ≠ '=') with
      | [] => some (unquotePlus name, [])
      | _ :: valueRaw => some (unquotePlus name, unquotePlus valueRaw))

/-- urllib.parse.urlencode over a pair list (doseq=True, string values):
quote each name and value with quote_plus, join pairs with equals signs
and ampersands. -/
def urlencodePairs (q : List (List Char × List Char)) : List Char :=
  List.intercalate ['&'] (q.map (fun kv => quotePlus kv.1 ++ '=' :: quotePlus kv.2))

theorem pyUrlsplit_sample :
    pyUrlsplit "https://Ex.com//a/b?x=1#frag".data =
      ⟨"https".data, "Ex.com".data, "//a/b".data, "x=1".data, "frag".data⟩ := by
  decide

theorem pyStrip_sample : pyStrip "  hi there ".data = "hi there".data := by
  decide

/- ## Article data model (src/ingest/gdelt_fetch.py) -/

/-- GDELTArticle dataclass: url and title are strings, the provenance
fields are optional strings (None modelled as none). -/
structure GDELTArticle where
  url : List Char
  title : List Char
  seendate : Option (List Char) := none
  sourcecountry : Option (List Char) := none
  sourcelanguage : Option (List Char) := none
  domain : Option (List Char) := none
  socialimage : Option (List Char) := none
deriving DecidableEq, Repr

/- ## Deduplication (src/process/dedupe.py) -/

/-- The _TRACKING_KEYS set of dedupe.py. -/
def trackingKeys : List (List Char) :=
  ["utm_source".data, "utm_medium".data, "utm_campaign".data, "utm_term".data,
   "utm_content".data, "gclid".data, "fbclid".data, "igshid".data,
   "mc_cid".data, "mc_eid".data]

/-- dedupe._normalize_title: join the whitespace-split words of the
stripped, lowercased title with single spaces. -/
def normalizeTitle (title : List Char) : List Char :=
  List.intercalate [' '] (pySplitWs (lowerStr (pyStrip title)))

/-- Collapse runs of two or more slashes to one, as re.sub applied to
the slash-run pattern in dedupe.py. -/
def collapseSlashes : List Char → List Char
  | [] => []
  | [c] => [c]
  | c₁ :: c₂ :: rest =>
    if c₁ = '/' ∧ c₂ = '/' then collapseSlashes (c₂ :: rest)
    else c₁ :: collapseSlashes (c₂ :: rest)

/-- dedupe._canonicalize_url: split the stripped URL, default a missing
scheme to https, lowercase scheme and host, collapse repeated path
slashes with an empty path becoming a single slash, drop tracking query
parameters, re-encode the rest of the query, and drop the fragment. -/
def canonicalizeUrl (url : List Char) : List Char :=
  let u := pyUrlsplit (pyStrip url)
  let scheme := lowerStr (if u.scheme = [] then "https".data else u.scheme)
  let netloc := lowerStr u.netloc
  let path := collapseSlashes (if u.path = [] then "/".data else u.path)
  let q := parseQsl u.query
  let q2 := q.filter (fun kv => kv.1 ∉ trackingKeys)
  let query := urlencodePairs q2
  pyUrlunsplit scheme netloc path query []

/-- The fallback identity key of dedupe_articles: sha256 of normalized
title, a pipe, and the canonical URL with its query part removed.  The
digest is modelled as the hashed text itself (identity keys only ever
meet equality tests). -/
def fallbackKey (titleN urlC : List Char) : List Char :=
  titleN ++ '|' :: urlC.takeWhile (fun c => c ≠ '?')

/-- Loop body of dedupe_articles, threading the two seen sets.  Articles
with a blank URL or title, a previously seen canonical URL, or a
previously seen fallback key go to the duplicate list; everything else
records both keys and goes to the unique list. -/
def dedupeGo : List GDELTArticle → List (List Char) → List (List Char) →
    List GDELTArticle × List GDELTArticle
  | [], _, _ => ([], [])
  | a :: rest, seenUrl, seenFb =>
    let articleUrl := pyStrip a.url
    let articleTitle := pyStrip a.title
    if articleUrl = [] ∨ articleTitle = [] then
      let p := dedupeGo rest seenUrl seenFb
      (p.1, a :: p.2)
    else
      let urlC := canonicalizeUrl articleUrl
      if urlC ∈ seenUrl then
        let p := dedupeGo rest seenUrl seenFb
        (p.1, a :: p.2)
      else
        let fb := fallbackKey (normalizeTitle articleTitle) urlC
        if fb ∈ seenFb then
          let p := dedupeGo rest seenUrl seenFb
          (p.1, a :: p.2)
        else
          let p := dedupeGo rest (urlC :: seenUrl) (fb :: seenFb)
          (a :: p.1, p.2)

/-- dedupe.dedupe_articles: single pass from empty seen sets, returning
the unique articles and the duplicates in input order. -/
def dedupe_articles (articles : List GDELTArticle) :
    List GDELTArticle × List GDELTArticle :=
  dedupeGo articles [] []

theorem canonicalizeUrl_sample_tracking :
    canonicalizeUrl "https://a.com/x?utm_source=y".data = "https://a.com/x".data := by
  decide

theorem canonicalizeUrl_sample_mixed :
    canonicalizeUrl "HTTP://A.com//x/y?b=2&utm_medium=m&a=1#frag".data =
      "http://a.com/x/y?b=2&a=1".data := by
  decide

/- ## Clustering (src/process/cluster.py) -/

/-- ArticleCluster dataclass: a cluster id and the ordered member list.
The size property is the member count and the label property is the
title of the first member. -/
structure ArticleCluster where
  cluster_id : ℤ
  articles : List GDELTArticle
deriving DecidableEq, Repr

/-- ArticleCluster.size. -/
def ArticleCluster.size (c : ArticleCluster) : ℕ :=
  c.articles.length

/-- ArticleCluster.label: the title of the first (representative)
article, or the empty string for an empty cluster. -/
def ArticleCluster.label (c : ArticleCluster) : List Char :=
  match c.articles with
  | [] => []
  | a :: _ => a.title

/-- One step of the bucket-building loop of cluster_articles: Python
dict.setdefault keeps first-seen key order and appends the article to
the bucket of its label. -/
def addToBuckets (bs : List (ℤ × List GDELTArticle)) (l : ℤ) (a : GDELTArticle) :
    List (ℤ × List GDELTArticle) :=
  match bs with
  | [] => [(l, [a])]
  | (k, arts) :: rest =>
    if k = l then (k, arts ++ [a]) :: rest
    else (k, arts) :: addToBuckets rest l a

/-- The buckets dict of cluster_articles, built from the label/article
pairs in input order. -/
def bucketsOf (pairs : List (ℤ × GDELTArticle)) : List (ℤ × List GDELTArticle) :=
  pairs.foldl (fun bs p => addToBuckets bs p.1 p.2) []

/-- Ordering used by the size sort of cluster_articles: clusters of
larger or equal size come first.  Python list.sort with reverse=True is
a stable descending sort, and insertionSort with this relation is the
stable descending sort. -/
def sizeGe (a b : ArticleCluster) : Prop :=
  b.size ≤ a.size

instance : DecidableRel sizeGe := fun a b =>
  inferInstanceAs (Decidable (b.size ≤ a.size))

instance : IsTotal ArticleCluster sizeGe :=
  ⟨fun a b => le_total b.size a.size⟩

instance : IsTrans ArticleCluster sizeGe :=
  ⟨fun _ _ _ hab hbc => le_trans hbc hab⟩

/-- The renumbering loop of cluster_articles: after sorting, cluster_id
is reassigned to the position in the sorted order. -/
def renumber (n : ℤ) : List ArticleCluster → List ArticleCluster
  | [] => []
  | c :: rest => { c with cluster_id := n } :: renumber (n + 1) rest

/-- cluster.cluster_articles with the label assignment of the fitted
clustering abstracted as an integer label list aligned with the input
(the labels are produced by the external library fit; every property
proved below holds for every labelling).  Empty input yields no
clusters; a single article is one cluster of id 0; otherwise articles
are bucketed by label in first-seen order, sorted by size descending
with the stable sort, and renumbered from 0. -/
def cluster_articles (articles : List GDELTArticle) (labels : List ℤ) :
    List ArticleCluster :=
  if articles = [] then []
  else if articles.length = 1 then [⟨0, articles⟩]
  else
    let buckets := bucketsOf (labels.zip articles)
    let clusters := buckets.map (fun p => ArticleCluster.mk p.1 p.2)
    renumber 0 (List.insertionSort sizeGe clusters)

/- ## Scoring (src/process/score.py) -/

/-- The DEFAULT_WEIGHTS dict of score.py (floats as rationals). -/
def DEFAULT_WEIGHTS : List (List Char × ℚ) :=
  [("keyword_relevance".data, 3/10), ("cluster_size".data, 3/10),
   ("source_diversity".data, 3/20), ("recency".data, 3/20),
   ("geo_spread".data, 1/10)]

/-- The un-normalized per-cluster signal values of
score._compute_raw_signals. -/
structure RawSignals where
  keyword_relevance : ℚ
  cluster_size : ℚ
  source_diversity : ℚ
  recency_hours_ago : ℚ
  geo_spread : ℚ
deriving DecidableEq, Repr

/-- The normalized signals dict attached to a ScoredCluster (its five
keys are fixed, so it is modelled as a structure). -/
structure Signals where
  keyword_relevance : ℚ
  cluster_size : ℚ
  source_diversity : ℚ
  recency : ℚ
  geo_spread : ℚ
deriving DecidableEq, Repr

/-- ScoredCluster dataclass. -/
structure ScoredCluster where
  cluster : ArticleCluster
  score : ℚ
  signals : Signals
deriving DecidableEq, Repr

/-- Python truthiness filter for optional string fields: None and the
empty string are skipped. -/
def truthyOpt : Option (List Char) → Option (List Char)
  | none => none
  | some s => if s = [] then none else some s

/-- score._keyword_relevance: the fraction of member titles containing
at least one keyword as a case-insensitive substring; 1.0 with no
keywords, 0.0 for an empty cluster. -/
def keywordRelevance (cluster : ArticleCluster) (keywords : List (List Char)) : ℚ :=
  if keywords = [] then 1
  else
    let lowerKeywords := keywords.map lowerStr
    let matchCount := (cluster.articles.filter
      (fun a => lowerKeywords.any (fun kw => isSubstring (lowerStr a.title) kw))).length
    if cluster.articles = [] then 0
    else (matchCount : ℚ) / (cluster.articles.length : ℚ)

/-- score._compute_raw_signals.  The seendate parser (_parse_seendate,
strptime over three formats) is abstracted as the parameter parseDate
mapping an optional raw seendate to an optional time coordinate in
hours; every theorem below quantifies over it, so each holds for the
concrete parser.  The recency signal is the hour distance from now to
the latest parseable date, clamped at zero, or 168.0 when nothing
parses. -/
def computeRawSignals (cluster : ArticleCluster) (now : ℚ)
    (keywords : List (List Char)) (parseDate : Option (List Char) → Option ℚ) :
    RawSignals :=
  let articles := cluster.articles
  let relevance := keywordRelevance cluster keywords
  let size : ℚ := (articles.length : ℚ)
  let diversity : ℚ := ((articles.filterMap (fun a => truthyOpt a.domain)).dedup.length : ℚ)
  let hoursAgo : ℚ :=
    match articles.filterMap (fun a => parseDate a.seendate) with
    | [] => 168
    | v :: vs => max (now - vs.foldl max v) 0
  let geo : ℚ := ((articles.filterMap (fun a => truthyOpt a.sourcecountry)).dedup.length : ℚ)
  ⟨relevance, size, diversity, hoursAgo, geo⟩

/-- Python min over a nonempty list (0 on the empty list, never hit by
the call sites). -/
def pyMin : List ℚ → ℚ
  | [] => 0
  | v :: vs => vs.foldl min v

/-- Python max over a nonempty list (0 on the empty list, never hit by
the call sites). -/
def pyMax : List ℚ → ℚ
  | [] => 0
  | v :: vs => vs.foldl max v

/-- score._normalize: min-max scaling to the unit interval; a degenerate
list (max equal to min) returns all ones before the inversion step;
invert flips scaled values to 1 - value. -/
def pyNormalize (values : List ℚ) (invert : Bool) : List ℚ :=
  match values with
  | [] => []
  | v :: vs =>
    let lo := pyMin (v :: vs)
    let hi := pyMax (v :: vs)
    if hi = lo then List.replicate (v :: vs).length 1
    else
      let normalized := (v :: vs).map (fun x => (x - lo) / (hi - lo))
      if invert then normalized.map (fun n => 1 - n) else normalized

/-- Python w.get(k, 0.0) over the weights dict. -/
def wget (w : List (List Char × ℚ)) (k : List Char) : ℚ :=
  (List.lookup k w).getD 0

/-- The per-cluster assembly loop of score_clusters: pair each cluster
with its five normalized signal values and the weighted composite
score. -/
def buildScored (w : List (List Char × ℚ)) :
    List ArticleCluster → List ℚ → List ℚ → List ℚ → List ℚ → List ℚ →
    List ScoredCluster
  | c :: cs, r :: rs, s :: ss, d :: ds, e :: es, g :: gs =>
    { cluster := c,
      score := r * wget w "keyword_relevance".data + s * wget w "cluster_size".data +
        d * wget w "source_diversity".data + e * wget w "recency".data +
        g * wget w "geo_spread".data,
      signals := ⟨r, s, d, e, g⟩ } :: buildScored w cs rs ss ds es gs
  | _, _, _, _, _, _ => []

/-- Raw signal records for a cluster batch, in input order (the raw list
of score_clusters). -/
def rawSignalsList (clusters : List ArticleCluster) (now : ℚ)
    (keywords : List (List Char)) (parseDate : Option (List Char) → Option ℚ) :
    List RawSignals :=
  clusters.map (fun c => computeRawSignals c now keywords parseDate)

/-- Ordering used by the final sort of score_clusters: higher or equal
score first.  Python list.sort(key=score, reverse=True) is a stable
descending sort, and insertionSort with this relation is the stable
descending sort. -/
def scoreGe (a b : ScoredCluster) : Prop :=
  b.score ≤ a.score

instance : DecidableRel scoreGe := fun a b =>
  inferInstanceAs (Decidable (b.score ≤ a.score))

instance : IsTotal ScoredCluster scoreGe :=
  ⟨fun a b => le_total b.score a.score⟩

instance : IsTrans ScoredCluster scoreGe :=
  ⟨fun _ _ _ hab hbc => le_trans hbc hab⟩

/-- The weights resolution of score_clusters: Python weights or
DEFAULT_WEIGHTS, where None and the empty dict are falsy. -/
def resolveWeights (weights : Option (List (List Char × ℚ))) :
    List (List Char × ℚ) :=
  match weights with
  | none => DEFAULT_WEIGHTS
  | some l => if l = [] then DEFAULT_WEIGHTS else l

/-- score.score_clusters before its final sort: resolve the weights
(None or an empty dict falls back to DEFAULT_WEIGHTS), compute and
normalize the five signal columns (recency inverted), and assemble the
scored clusters in input order. -/
def scoreClustersPre (clusters : List ArticleCluster)
    (weights : Option (List (List Char × ℚ)))
    (parseDate : Option (List Char) → Option ℚ) (now : ℚ)
    (keywords : List (List Char)) : List ScoredCluster :=
  if clusters = [] then []
  else
    let w := resolveWeights weights
    let raw := rawSignalsList clusters now keywords parseDate
    let relevances := pyNormalize (raw.map (fun r => r.keyword_relevance)) false
    let sizes := pyNormalize (raw.map (fun r => r.cluster_size)) false
    let diversities := pyNormalize (raw.map (fun r => r.source_diversity)) false
    let recencies := pyNormalize (raw.map (fun r => r.recency_hours_ago)) true
    let geos := pyNormalize (raw.map (fun r => r.geo_spread)) false
    buildScored w clusters relevances sizes diversities recencies geos

/-- score.score_clusters: the assembled list sorted by composite score
descending (stable). -/
def score_clusters (clusters : List ArticleCluster)
    (weights : Option (List (List Char × ℚ)))
    (parseDate : Option (List Char) → Option ℚ) (now : ℚ)
    (keywords : List (List Char)) : List ScoredCluster :=
  List.insertionSort scoreGe (scoreClustersPre clusters weights parseDate now keywords)

/- ## Summarization (src/process/summarize.py) -/

/-- TrendSummary dataclass. -/
structure TrendSummary where
  rank : ℕ
  headline : List Char
  score : ℚ
  article_count : ℕ
  source_count : ℕ
  countries : List (List Char)
  date_range : List Char
  top_urls : List (List Char)
deriving DecidableEq, Repr

/-- Lexicographic string comparison by code point, the order of Python
sorted over strings. -/
def strLeB : List Char → List Char → Bool
  | [], _ => true
  | _ :: _, [] => false
  | a :: as, b :: bs =>
    if a < b then true else if b < a then false else strLeB as bs

/-- Relation form of strLeB for the sort. -/
def strLe (a b : List Char) : Prop :=
  strLeB a b = true

instance : DecidableRel strLe := fun a b =>
  inferInstanceAs (Decidable (strLeB a b = true))

/-- One summary of summarize_clusters: headline from the cluster label,
copied score, member count, distinct non-empty domain count,
lexicographically sorted distinct non-empty countries, the date-range
string, and the URLs of the first max_urls_per_trend members. -/
def mkTrendSummary (dateRangeStr : ScoredCluster → List Char)
    (maxUrls : ℤ) (rank : ℕ) (sc : ScoredCluster) : TrendSummary :=
  let articles := sc.cluster.articles
  let domains := (articles.filterMap (fun a => truthyOpt a.domain)).dedup
  let countries :=
    List.insertionSort strLe ((articles.filterMap (fun a => truthyOpt a.sourcecountry)).dedup)
  let urls := (pySliceTo articles maxUrls).map (fun a => a.url)
  { rank := rank,
    headline := sc.cluster.label,
    score := sc.score,
    article_count := sc.cluster.size,
    source_count := domains.length,
    countries := countries,
    date_range := dateRangeStr sc,
    top_urls := urls }

/-- The enumerate(..., start=1) loop of summarize_clusters. -/
def summarizeGo (dateRangeStr : ScoredCluster → List Char) (maxUrls : ℤ) :
    ℕ → List ScoredCluster → List TrendSummary
  | _, [] => []
  | rank, sc :: rest =>
    mkTrendSummary dateRangeStr maxUrls rank sc ::
      summarizeGo dateRangeStr maxUrls (rank + 1) rest

/-- summarize.summarize_clusters.  The _date_range_str helper (strftime
date formatting over parsed seendates) is abstracted as the parameter
dateRangeStr; every theorem below quantifies over it.  The scored input
is cut to max_trends entries with Python slicing and ranked from 1. -/
def summarize_clusters (scored : List ScoredCluster) (maxTrends : ℤ)
    (maxUrls : ℤ) (dateRangeStr : ScoredCluster → List Char) :
    List TrendSummary :=
  summarizeGo dateRangeStr maxUrls 1 (pySliceTo scored maxTrends)

/- ## Lemmas about deduplication -/

/-- Any run of dedupeGo splits its input into two order-preserving
sublists whose interleaving is the input, whatever the seen sets are. -/
theorem dedupeGo_spec (arts : List GDELTArticle) : ∀ sU sF : List (List Char),
    ((dedupeGo arts sU sF).1 ++ (dedupeGo arts sU sF).2).Perm arts ∧
    (dedupeGo arts sU sF).1.Sublist arts ∧
    (dedupeGo arts sU sF).2.Sublist arts := by
  induction arts with
  | nil => intro sU sF; simp [dedupeGo]
  | cons a rest ih =>
    intro sU sF
    simp only [dedupeGo]
    split_ifs with h1 h2 h3
    · obtain ⟨hp, hu, hd⟩ := ih sU sF
      exact ⟨List.perm_middle.trans (hp.cons a), hu.cons a, hd.cons₂ a⟩
    · obtain ⟨hp, hu, hd⟩ := ih sU sF
      exact ⟨List.perm_middle.trans (hp.cons a), hu.cons a, hd.cons₂ a⟩
    · obtain ⟨hp, hu, hd⟩ := ih sU sF
      exact ⟨List.perm_middle.trans (hp.cons a), hu.cons a, hd.cons₂ a⟩
    · obtain ⟨hp, hu, hd⟩ := ih
        (canonicalizeUrl (pyStrip a.url) :: sU)
        (fallbackKey (normalizeTitle (pyStrip a.title)) (canonicalizeUrl (pyStrip a.url)) :: sF)
      exact ⟨hp.cons a, hu.cons₂ a, hd.cons a⟩

/-- Claim C4: dedupe_articles returns a pair (unique, duplicates) whose
concatenation is a permutation of the input (the input multiset is
reproduced and each input element lands in exactly one of the two
lists), each list is an order-preserving sublist of the input, and the
lengths add up to the input length. -/
theorem dedupe_partition_law (articles : List GDELTArticle) :
    ((dedupe_articles articles).1 ++ (dedupe_articles articles).2).Perm articles ∧
    (dedupe_articles articles).1.Sublist articles ∧
    (dedupe_articles articles).2.Sublist articles ∧
    (dedupe_articles articles).1.length + (dedupe_articles articles).2.length
      = articles.length := by
  obtain ⟨hp, hu, hd⟩ := dedupeGo_spec articles [] []
  refine ⟨hp, hu, hd, ?_⟩
  have := hp.length_eq
  simpa [List.length_append] using this

/- ## Lemmas about summarization -/

theorem summarizeGo_length (dr : ScoredCluster → List Char) (mu : ℤ) :
    ∀ (n : ℕ) (l : List ScoredCluster), (summarizeGo dr mu n l).length = l.length := by
  intro n l
  induction l generalizing n with
  | nil => simp [summarizeGo]
  | cons sc rest ih => simp [summarizeGo, ih]

theorem summarizeGo_ranks (dr : ScoredCluster → List Char) (mu : ℤ) :
    ∀ (n : ℕ) (l : List ScoredCluster),
      (summarizeGo dr mu n l).map (fun t => t.rank) = List.range' n l.length := by
  intro n l
  induction l generalizing n with
  | nil => simp [summarizeGo]
  | cons sc rest ih =>
    simp [summarizeGo, mkTrendSummary, ih, List.range'_succ]

theorem summarizeGo_headlines (dr : ScoredCluster → List Char) (mu : ℤ) :
    ∀ (n : ℕ) (l : List ScoredCluster),
      (summarizeGo dr mu n l).map (fun t => t.headline) =
        l.map (fun sc => sc.cluster.label) := by
  intro n l
  induction l generalizing n with
  | nil => simp [summarizeGo]
  | cons sc rest ih => simp [summarizeGo, mkTrendSummary, ih]

theorem summarizeGo_scores (dr : ScoredCluster → List Char) (mu : ℤ) :
    ∀ (n : ℕ) (l : List ScoredCluster),
      (summarizeGo dr mu n l).map (fun t => t.score) = l.map (fun sc => sc.score) := by
  intro n l
  induction l generalizing n with
  | nil => simp [summarizeGo]
  | cons sc rest ih => simp [summarizeGo, mkTrendSummary, ih]

/- ## Sample inputs used by witnesses and counterexamples -/

/-- Sample article on domain a.com. -/
def artStormA : GDELTArticle :=
  { url := "https://a.com/x".data, title := "Storm hits coast".data }

/-- Same title and path as artStormA but on domain b.com. -/
def artStormB : GDELTArticle :=
  { url := "https://b.com/x".data, title := "Storm hits coast".data }

/-- Same title and canonical URL path as artStormA, tracking query. -/
def artStormTracking : GDELTArticle :=
  { url := "https://a.com/x?utm_source=y".data, title := "Storm hits coast".data }

/-- Same title and host as artStormA, query p=1 (kept by
canonicalization). -/
def artStormQ1 : GDELTArticle :=
  { url := "https://a.com/x?p=1".data, title := "Storm hits coast".data }

/-- Same title and host as artStormA, query p=2. -/
def artStormQ2 : GDELTArticle :=
  { url := "https://a.com/x?p=2".data, title := "Storm hits coast".data }

/-- URL of artStormA with a trailing slash added to the path. -/
def artStormSlash : GDELTArticle :=
  { url := "https://a.com/x/".data, title := "Storm hits coast".data }

/-- Sample single-article cluster. -/
def clusterSample : ArticleCluster :=
  ⟨0, [artStormA]⟩

/-- Sample scored cluster wrapping clusterSample. -/
def scoredSample : ScoredCluster :=
  ⟨clusterSample, 1, ⟨1, 1, 1, 1, 1⟩⟩

/-- A date-parse stub for concrete score evaluations: nothing parses. -/
def parseNone : Option (List Char) → Option ℚ :=
  fun _ => none

/- ## Claim C8 -/

/-- Claim C8 (amended: max_trends taken nonnegative): for a nonnegative
max_trends k, summarize_clusters returns exactly min(k, n) summaries,
built in order from the first min(k, n) scored clusters, with ranks
exactly 1, 2, ..., min(k, n). -/
theorem summarize_prefix_and_ranks (scored : List ScoredCluster)
    (dr : ScoredCluster → List Char) (mu : ℤ) (k : ℤ) (hk : 0 ≤ k) :
    (summarize_clusters scored k mu dr).length = min k.toNat scored.length ∧
    (summarize_clusters scored k mu dr).map (fun t => t.rank) =
      List.range' 1 (min k.toNat scored.length) ∧
    (summarize_clusters scored k mu dr).map (fun t => t.headline) =
      (scored.take k.toNat).map (fun sc => sc.cluster.label) ∧
    (summarize_clusters scored k mu dr).map (fun t => t.score) =
      (scored.take k.toNat).map (fun sc => sc.score) := by
  have hslice : pySliceTo scored k = scored.take k.toNat := by
    simp [pySliceTo, hk]
  refine ⟨?_, ?_, ?_, ?_⟩
  · simp [summarize_clusters, hslice, summarizeGo_length, List.length_take]
  · simp [summarize_clusters, hslice, summarizeGo_ranks, List.length_take]
  · simp [summarize_clusters, hslice, summarizeGo_headlines]
  · simp [summarize_clusters, hslice, summarizeGo_scores]

/-- Witness for claim C8 at a concrete input: one scored cluster,
max_trends 1. -/
theorem summarize_prefix_and_ranks_witness :
    (summarize_clusters [scoredSample] 1 5 (fun _ => [])).length =
      min (1 : ℤ).toNat [scoredSample].length ∧
    (summarize_clusters [scoredSample] 1 5 (fun _ => [])).map (fun t => t.rank) =
      List.range' 1 (min (1 : ℤ).toNat [scoredSample].length) ∧
    (summarize_clusters [scoredSample] 1 5 (fun _ => [])).map (fun t => t.headline) =
      ([scoredSample].take (1 : ℤ).toNat).map (fun sc => sc.cluster.label) ∧
    (summarize_clusters [scoredSample] 1 5 (fun _ => [])).map (fun t => t.score) =
      ([scoredSample].take (1 : ℤ).toNat).map (fun sc => sc.score) :=
  summarize_prefix_and_ranks [scoredSample] (fun _ => []) 5 1 (by decide)

/-- Counterexample to claim C8 as stated for every max_trends value: at
max_trends -1 with one scored cluster, Python slicing yields zero
summaries while min(-1, 1) is -1. -/
theorem summarize_negative_max_trends_counterexample :
    ((summarize_clusters [scoredSample] (-1) 5 (fun _ => [])).length : ℤ) ≠
      min (-1 : ℤ) ([scoredSample].length : ℤ) := by
  decide

/- ## Lemmas about stripping and canonicalization -/

theorem dropWhile_self_eq (p : Char → Bool) (l : List Char) :
    (l.dropWhile p).dropWhile p = l.dropWhile p := by
  induction l with
  | nil => simp
  | cons a rest ih =>
    by_cases h : p a
    · rw [List.dropWhile_cons_of_pos h]; exact ih
    · rw [List.dropWhile_cons_of_neg h, List.dropWhile_cons_of_neg h]

theorem head_not_of_dropWhile_self (p : Char → Bool) (c : Char) (r : List Char)
    (h : (c :: r).dropWhile p = c :: r) : ¬ p c := by
  intro hc
  rw [List.dropWhile_cons_of_pos hc] at h
  have hlen := congrArg List.length h
  have hle := (List.dropWhile_sublist (l := r) p).length_le
  simp only [List.length_cons] at hlen
  omega

theorem exists_dropWhile_decomp (p : Char → Bool) (l : List Char) :
    ∃ t, l = t ++ l.dropWhile p := by
  induction l with
  | nil => exact ⟨[], rfl⟩
  | cons a rest ih =>
    by_cases h : p a
    · obtain ⟨t, ht⟩ := ih
      exact ⟨a :: t, by rw [List.dropWhile_cons_of_pos h]; simpa using ht⟩
    · exact ⟨[], by rw [List.dropWhile_cons_of_neg h]; rfl⟩

/-- Python str.strip is idempotent. -/
theorem pyStrip_idem (s : List Char) : pyStrip (pyStrip s) = pyStrip s := by
  set p := isPySpace with hp
  set A := s.dropWhile p with hA
  have hAself : A.dropWhile p = A := dropWhile_self_eq p s
  set D := A.reverse.dropWhile p with hD
  have hstrip : pyStrip s = D.reverse := rfl
  have hBself : D.reverse.dropWhile p = D.reverse := by
    obtain ⟨t, ht⟩ := exists_dropWhile_decomp p A.reverse
    have hAeq : A = D.reverse ++ t.reverse := by
      have := congrArg List.reverse ht
      simpa using this
    cases hrev : D.reverse with
    | nil => simp
    | cons c r =>
      have hcons : A = c :: (r ++ t.reverse) := by
        rw [hAeq, hrev]; simp
      have hnot : ¬ p c := by
        apply head_not_of_dropWhile_self p c (r ++ t.reverse)
        rw [← hcons]; exact hAself
      rw [List.dropWhile_cons_of_neg hnot]
  rw [hstrip]
  show ((D.reverse.dropWhile p).reverse.dropWhile p).reverse = D.reverse
  rw [hBself]
  simp only [List.reverse_reverse]
  rw [dropWhile_self_eq p A.reverse]

/-- Unfolding of canonicalizeUrl through the url parts, with the inner
strip collapsed for an already stripped input. -/
theorem canonicalizeUrl_stripped (url : List Char) :
    canonicalizeUrl (pyStrip url) =
      pyUrlunsplit
        (lowerStr (if (pyUrlsplit (pyStrip url)).scheme = [] then "https".data
          else (pyUrlsplit (pyStrip url)).scheme))
        (lowerStr (pyUrlsplit (pyStrip url)).netloc)
        (collapseSlashes (if (pyUrlsplit (pyStrip url)).path = [] then "/".data
          else (pyUrlsplit (pyStrip url)).path))
        (urlencodePairs ((parseQsl (pyUrlsplit (pyStrip url)).query).filter
          (fun kv => kv.1 ∉ trackingKeys)))
        [] := by
  unfold canonicalizeUrl
  rw [pyStrip_idem]

/-- On a two-article input where both articles have nonblank URL and
title, the second is classified a duplicate as soon as it repeats the
canonical URL or the fallback key of the first. -/
theorem dedupe_pair_dup (a1 a2 : GDELTArticle)
    (h1 : ¬ (pyStrip a1.url = [] ∨ pyStrip a1.title = []))
    (h2 : ¬ (pyStrip a2.url = [] ∨ pyStrip a2.title = []))
    (hdup : canonicalizeUrl (pyStrip a2.url) = canonicalizeUrl (pyStrip a1.url) ∨
      fallbackKey (normalizeTitle (pyStrip a2.title)) (canonicalizeUrl (pyStrip a2.url)) =
        fallbackKey (normalizeTitle (pyStrip a1.title)) (canonicalizeUrl (pyStrip a1.url))) :
    dedupe_articles [a1, a2] = ([a1], [a2]) := by
  simp only [dedupe_articles, dedupeGo, List.not_mem_nil, if_false, if_neg h1, if_neg h2]
  by_cases hu : canonicalizeUrl (pyStrip a2.url) ∈ [canonicalizeUrl (pyStrip a1.url)]
  · rw [if_pos hu]
  · rw [if_neg hu]
    rcases hdup with h | h
    · exact absurd (List.mem_singleton.mpr h) hu
    · rw [if_pos (List.mem_singleton.mpr h)]

/- ## Claim C1 -/

/-- Claim C1 (amended): the fallback identity key hashes
normalized_title, a pipe, and the canonical URL with only its query
removed — scheme and host included.  Two articles with nonblank URL and
title whose normalized titles agree and whose canonical URLs agree once
the query is stripped always collapse (the second is classified a
duplicate, via the URL set or via the fallback set); same-title
same-path articles on different domains do not, as the counterexample
shows. -/
theorem dedupe_fallback_key_includes_host (a1 a2 : GDELTArticle)
    (h1 : ¬ (pyStrip a1.url = [] ∨ pyStrip a1.title = []))
    (h2 : ¬ (pyStrip a2.url = [] ∨ pyStrip a2.title = []))
    (ht : normalizeTitle (pyStrip a1.title) = normalizeTitle (pyStrip a2.title))
    (hp : (canonicalizeUrl (pyStrip a1.url)).takeWhile (fun c => c ≠ '?') =
      (canonicalizeUrl (pyStrip a2.url)).takeWhile (fun c => c ≠ '?')) :
    dedupe_articles [a1, a2] = ([a1], [a2]) := by
  apply dedupe_pair_dup a1 a2 h1 h2
  right
  simp only [fallbackKey]
  rw [← ht, ← hp]

/-- Witness for claim C1: two same-title articles on the same host whose
URLs differ only in a retained (non-tracking) query parameter collide on
the fallback key and are deduplicated. -/
theorem dedupe_fallback_key_includes_host_witness :
    dedupe_articles [artStormQ1, artStormQ2] = ([artStormQ1], [artStormQ2]) :=
  dedupe_fallback_key_includes_host artStormQ1 artStormQ2
    (by decide) (by decide) (by decide) (by decide)

/-- Counterexample to claim C1 as stated: two articles with identical
normalized titles and identical canonical-URL paths but different
domains both reach and pass the fallback step — the second is NOT
classified a duplicate, because the fallback key contains the host. -/
theorem dedupe_fallback_domain_counterexample :
    normalizeTitle (pyStrip artStormA.title) = normalizeTitle (pyStrip artStormB.title) ∧
    (pyUrlsplit (pyStrip artStormA.url)).path = (pyUrlsplit (pyStrip artStormB.url)).path ∧
    (pyUrlsplit (pyStrip artStormA.url)).netloc ≠ (pyUrlsplit (pyStrip artStormB.url)).netloc ∧
    dedupe_articles [artStormA, artStormB] = ([artStormA, artStormB], []) := by
  decide

/- ## Claim C2 -/

/-- Claim C2 (amended): two articles whose URLs differ only by tracking
query parameters or by a fragment — same scheme, host and path, and the
same query once tracking keys are dropped — get the same canonical URL,
and dedupe_articles classifies the second as a duplicate of the first.
A trailing-slash difference in the path is NOT collapsed (see the
counterexample); only the empty path and the single-slash path
coincide. -/
theorem dedupe_tracking_fragment_equivalence (a1 a2 : GDELTArticle)
    (h1 : ¬ (pyStrip a1.url = [] ∨ pyStrip a1.title = []))
    (h2 : ¬ (pyStrip a2.url = [] ∨ pyStrip a2.title = []))
    (hsc : (pyUrlsplit (pyStrip a1.url)).scheme = (pyUrlsplit (pyStrip a2.url)).scheme)
    (hn : (pyUrlsplit (pyStrip a1.url)).netloc = (pyUrlsplit (pyStrip a2.url)).netloc)
    (hpa : (pyUrlsplit (pyStrip a1.url)).path = (pyUrlsplit (pyStrip a2.url)).path)
    (hq : (parseQsl (pyUrlsplit (pyStrip a1.url)).query).filter
        (fun kv => kv.1 ∉ trackingKeys) =
      (parseQsl (pyUrlsplit (pyStrip a2.url)).query).filter
        (fun kv => kv.1 ∉ trackingKeys)) :
    canonicalizeUrl (pyStrip a1.url) = canonicalizeUrl (pyStrip a2.url) ∧
    dedupe_articles [a1, a2] = ([a1], [a2]) := by
  have hc : canonicalizeUrl (pyStrip a1.url) = canonicalizeUrl (pyStrip a2.url) := by
    rw [canonicalizeUrl_stripped, canonicalizeUrl_stripped, hsc, hn, hpa, hq]
  exact ⟨hc, dedupe_pair_dup a1 a2 h1 h2 (Or.inl hc.symm)⟩

/-- Witness for claim C2, the dedupe half of the end-to-end example of
the spec: a URL with a utm_source tracking parameter collapses onto the
bare URL with the same title. -/
theorem dedupe_tracking_fragment_equivalence_witness :
    canonicalizeUrl (pyStrip artStormTracking.url) = canonicalizeUrl (pyStrip artStormA.url) ∧
    dedupe_articles [artStormTracking, artStormA] = ([artStormTracking], [artStormA]) :=
  dedupe_tracking_fragment_equivalence artStormTracking artStormA
    (by decide) (by decide) (by decide) (by decide) (by decide) (by decide)

/-- Counterexample to claim C2 as stated: two same-title articles whose
URLs differ only by a trailing slash in the path keep distinct canonical
URLs and are both kept as unique — they do not collapse. -/
theorem dedupe_trailing_slash_counterexample :
    artStormA.title = artStormSlash.title ∧
    canonicalizeUrl (pyStrip artStormA.url) ≠ canonicalizeUrl (pyStrip artStormSlash.url) ∧
    dedupe_articles [artStormA, artStormSlash] = ([artStormA, artStormSlash], []) := by
  decide

/- ## Lemmas about clustering -/

theorem renumber_map_articles (l : List ArticleCluster) :
    ∀ n : ℤ, (renumber n l).map (fun c => c.articles) = l.map (fun c => c.articles) := by
  induction l with
  | nil => intro n; rfl
  | cons c rest ih => intro n; simp [renumber, ih]

theorem renumber_map_size (l : List ArticleCluster) :
    ∀ n : ℤ, (renumber n l).map (fun c => c.size) = l.map (fun c => c.size) := by
  induction l with
  | nil => intro n; rfl
  | cons c rest ih =>
    intro n
    simp only [renumber, List.map_cons]
    rw [ih (n + 1)]
    rfl

theorem renumber_length (l : List ArticleCluster) :
    ∀ n : ℤ, (renumber n l).length = l.length := by
  induction l with
  | nil => intro n; rfl
  | cons c rest ih => intro n; simp [renumber, ih]

theorem renumber_get (l : List ArticleCluster) :
    ∀ (n : ℤ) (i : ℕ) (h : i < (renumber n l).length),
      ((renumber n l).get ⟨i, h⟩).cluster_id = n + i := by
  induction l with
  | nil => intro n i h; simp [renumber] at h
  | cons c rest ih =>
    intro n i h
    cases i with
    | zero => simp [renumber]
    | succ j =>
      have hj : j < (renumber (n + 1) rest).length := by
        simpa [renumber] using Nat.lt_of_succ_lt_succ (by simpa [renumber] using h)
      have := ih (n + 1) j hj
      simp only [renumber, List.get_cons_succ]
      rw [this]
      push_cast
      ring

theorem addToBuckets_flatten (l : ℤ) (a : GDELTArticle)
    (bs : List (ℤ × List GDELTArticle)) :
    (((addToBuckets bs l a).map Prod.snd).flatten).Perm
      (a :: (bs.map Prod.snd).flatten) := by
  induction bs with
  | nil => simp [addToBuckets]
  | cons b rest ih =>
    obtain ⟨k, arts⟩ := b
    by_cases hk : k = l
    · simp only [addToBuckets, if_pos hk, List.map_cons, List.flatten_cons]
      have h1 : ((arts ++ [a]) ++ ((rest.map Prod.snd).flatten)).Perm
          (([a] ++ arts) ++ ((rest.map Prod.snd).flatten)) :=
        (List.perm_append_comm).append_right _
      have h2 : (([a] ++ arts) ++ ((rest.map Prod.snd).flatten)) =
          a :: (arts ++ (rest.map Prod.snd).flatten) := by simp
      exact h2 ▸ h1
    · simp only [addToBuckets, if_neg hk, List.map_cons, List.flatten_cons]
      refine (List.Perm.append_left arts ih).trans ?_
      exact List.perm_middle

theorem bucketsOf_flatten_aux (ps : List (ℤ × GDELTArticle)) :
    ∀ bs, (((ps.foldl (fun bs p => addToBuckets bs p.1 p.2) bs).map Prod.snd).flatten).Perm
      ((bs.map Prod.snd).flatten ++ ps.map Prod.snd) := by
  induction ps with
  | nil => intro bs; simp
  | cons p rest ih =>
    intro bs
    simp only [List.foldl_cons, List.map_cons]
    refine (ih (addToBuckets bs p.1 p.2)).trans ?_
    refine ((addToBuckets_flatten p.1 p.2 bs).append_right _).trans ?_
    exact List.perm_middle.symm

/-- The buckets dict of cluster_articles partitions exactly the articles
of the zipped pairs. -/
theorem bucketsOf_flatten (ps : List (ℤ × GDELTArticle)) :
    (((bucketsOf ps).map Prod.snd).flatten).Perm (ps.map Prod.snd) := by
  simpa [bucketsOf] using bucketsOf_flatten_aux ps []

theorem clusterId_get_congr {l1 l2 : List ArticleCluster} (heq : l1 = l2) (i : ℕ)
    (h1 : i < l1.length) (h2 : i < l2.length) :
    (l1.get ⟨i, h1⟩).cluster_id = (l2.get ⟨i, h2⟩).cluster_id := by
  subst heq
  rfl

/- ## Claim C6 -/

/-- Claim C6: whatever integer labelling the fitted clustering returns
for the input articles, the clusters of cluster_articles partition the
input exactly (the concatenation of their member lists is a permutation
of the input, so every article belongs to exactly one cluster), the
cluster sizes are non-increasing in output order, and each cluster_id
equals its position in that order. -/
theorem cluster_partition_sorted_ids (articles : List GDELTArticle)
    (labels : List ℤ) (hlen : labels.length = articles.length) :
    (((cluster_articles articles labels).map (fun c => c.articles)).flatten).Perm articles ∧
    List.Sorted (fun a b : ℕ => b ≤ a)
      ((cluster_articles articles labels).map (fun c => c.size)) ∧
    ∀ i (h : i < (cluster_articles articles labels).length),
      ((cluster_articles articles labels).get ⟨i, h⟩).cluster_id = i := by
  by_cases hnil : articles = []
  · subst hnil
    refine ⟨by simp [cluster_articles], by simp [cluster_articles], ?_⟩
    intro i h
    simp [cluster_articles] at h
  · by_cases hone : articles.length = 1
    · have hcl : cluster_articles articles labels = [⟨0, articles⟩] := by
        simp [cluster_articles, hnil, hone]
      refine ⟨by simp [hcl], by simp [hcl, List.Sorted], ?_⟩
      intro i h
      rw [hcl] at h
      simp only [List.length_singleton] at h
      interval_cases i
      simp [hcl]
    · have hcl : cluster_articles articles labels =
          renumber 0 (List.insertionSort sizeGe
            ((bucketsOf (labels.zip articles)).map (fun p => ArticleCluster.mk p.1 p.2))) := by
        simp [cluster_articles, hnil, hone]
      set clusters := (bucketsOf (labels.zip articles)).map
        (fun p => ArticleCluster.mk p.1 p.2) with hclusters
      refine ⟨?_, ?_, ?_⟩
      · rw [hcl, renumber_map_articles]
        have hperm : (List.insertionSort sizeGe clusters).Perm clusters :=
          List.perm_insertionSort sizeGe clusters
        refine ((hperm.map (fun c => c.articles)).flatten).trans ?_
        have hmm : clusters.map (fun c => c.articles) =
            (bucketsOf (labels.zip articles)).map Prod.snd := by
          rw [hclusters, List.map_map]
          rfl
        rw [hmm]
        refine (bucketsOf_flatten (labels.zip articles)).trans ?_
        rw [List.map_snd_zip labels articles (le_of_eq hlen.symm)]
      · rw [hcl, renumber_map_size]
        have hsorted : List.Sorted sizeGe (List.insertionSort sizeGe clusters) :=
          List.sorted_insertionSort sizeGe clusters
        have h1 : List.Pairwise (fun a b : ArticleCluster => b.size ≤ a.size)
            (List.insertionSort sizeGe clusters) := hsorted
        exact List.pairwise_map.mpr h1
      · intro i h
        have hi2 : i < (renumber 0 (List.insertionSort sizeGe clusters)).length := by
          rw [← hcl]; exact h
        rw [clusterId_get_congr hcl i h hi2, renumber_get]
        simp

/-- Witness for claim C6 at a concrete input: three articles labelled
[1, 0, 1] produce clusters of sizes [2, 1] with ids 0 and 1. -/
theorem cluster_partition_sorted_ids_witness :
    ((((cluster_articles [artStormA, artStormB, artStormSlash] [1, 0, 1]).map
      (fun c => c.articles)).flatten).Perm [artStormA, artStormB, artStormSlash]) ∧
    List.Sorted (fun a b : ℕ => b ≤ a)
      ((cluster_articles [artStormA, artStormB, artStormSlash] [1, 0, 1]).map
        (fun c => c.size)) ∧
    ((cluster_articles [artStormA, artStormB, artStormSlash] [1, 0, 1]).get
      ⟨0, by decide⟩).cluster_id = 0 :=
  ⟨(cluster_partition_sorted_ids [artStormA, artStormB, artStormSlash] [1, 0, 1]
      (by decide)).1,
   (cluster_partition_sorted_ids [artStormA, artStormB, artStormSlash] [1, 0, 1]
      (by decide)).2.1,
   by
    have h := (cluster_partition_sorted_ids [artStormA, artStormB, artStormSlash]
      [1, 0, 1] (by decide)).2.2 0 (by decide)
    simpa using h⟩

/- ## Lemmas about normalization and scoring -/

theorem foldl_max_init_le (l : List ℚ) : ∀ a : ℚ, a ≤ l.foldl max a := by
  induction l with
  | nil => intro a; exact le_refl a
  | cons b t ih => intro a; exact le_trans (le_max_left a b) (ih (max a b))

theorem le_foldl_max (l : List ℚ) : ∀ (a x : ℚ), x ∈ l → x ≤ l.foldl max a := by
  induction l with
  | nil => intro a x hx; simp at hx
  | cons b t ih =>
    intro a x hx
    rcases List.mem_cons.mp hx with h | h
    · subst h
      exact le_trans (le_max_right a x) (foldl_max_init_le t (max a x))
    · exact ih (max a b) x h

theorem foldl_min_le_init (l : List ℚ) : ∀ a : ℚ, l.foldl min a ≤ a := by
  induction l with
  | nil => intro a; exact le_refl a
  | cons b t ih => intro a; exact le_trans (ih (min a b)) (min_le_left a b)

theorem foldl_min_le (l : List ℚ) : ∀ (a x : ℚ), x ∈ l → l.foldl min a ≤ x := by
  induction l with
  | nil => intro a x hx; simp at hx
  | cons b t ih =>
    intro a x hx
    rcases List.mem_cons.mp hx with h | h
    · subst h
      exact le_trans (foldl_min_le_init t (min a x)) (min_le_right a x)
    · exact ih (min a b) x h

theorem pyMin_le_mem (l : List ℚ) (x : ℚ) (hx : x ∈ l) : pyMin l ≤ x := by
  match l with
  | [] => simp at hx
  | v :: vs =>
    rcases List.mem_cons.mp hx with h | h
    · subst h; exact foldl_min_le_init vs x
    · exact foldl_min_le vs v x h

theorem le_pyMax_mem (l : List ℚ) (x : ℚ) (hx : x ∈ l) : x ≤ pyMax l := by
  match l with
  | [] => simp at hx
  | v :: vs =>
    rcases List.mem_cons.mp hx with h | h
    · subst h; exact foldl_max_init_le vs x
    · exact le_foldl_max vs v x h

/-- Every member of a normalized column lies in the unit interval. -/
theorem pyNormalize_mem_bounds (values : List ℚ) (invert : Bool) (y : ℚ)
    (hy : y ∈ pyNormalize values invert) : 0 ≤ y ∧ y ≤ 1 := by
  match values with
  | [] => simp [pyNormalize] at hy
  | v :: vs =>
    by_cases hdeg : pyMax (v :: vs) = pyMin (v :: vs)
    · rw [pyNormalize, if_pos hdeg] at hy
      have := List.eq_of_mem_replicate hy
      subst this
      norm_num
    · rw [pyNormalize, if_neg hdeg] at hy
      have hlt : pyMin (v :: vs) < pyMax (v :: vs) := by
        have h1 : pyMin (v :: vs) ≤ v := pyMin_le_mem _ v (List.mem_cons_self v vs)
        have h2 : v ≤ pyMax (v :: vs) := le_pyMax_mem _ v (List.mem_cons_self v vs)
        exact lt_of_le_of_ne (le_trans h1 h2) (fun h => hdeg h.symm)
      have hpos : 0 < pyMax (v :: vs) - pyMin (v :: vs) := sub_pos.mpr hlt
      have hbase : ∀ z ∈ (v :: vs).map
          (fun x => (x - pyMin (v :: vs)) / (pyMax (v :: vs) - pyMin (v :: vs))),
          0 ≤ z ∧ z ≤ 1 := by
        intro z hz
        obtain ⟨x, hx, hxz⟩ := List.mem_map.mp hz
        subst hxz
        constructor
        · exact div_nonneg (sub_nonneg.mpr (pyMin_le_mem _ x hx)) (le_of_lt hpos)
        · rw [div_le_one hpos]
          exact sub_le_sub_right (le_pyMax_mem _ x hx) _
      cases invert with
      | false =>
        simp only [if_neg, Bool.false_eq_true, if_false] at hy
        exact hbase y hy
      | true =>
        simp only [if_pos] at hy
        obtain ⟨z, hz, hzy⟩ := List.mem_map.mp hy
        obtain ⟨hz0, hz1⟩ := hbase z hz
        subst hzy
        constructor
        · linarith
        · linarith

/-- A degenerate column (max equal to min) normalizes to all ones, for
either inversion flag. -/
theorem pyNormalize_degenerate (values : List ℚ) (invert : Bool)
    (hdeg : pyMax values = pyMin values) (y : ℚ)
    (hy : y ∈ pyNormalize values invert) : y = 1 := by
  match values with
  | [] => simp [pyNormalize] at hy
  | v :: vs =>
    rw [pyNormalize, if_pos hdeg] at hy
    exact List.eq_of_mem_replicate hy

/-- Each scored cluster assembled by buildScored draws its five signal
values from the five normalized columns. -/
theorem buildScored_mem_signals (w : List (List Char × ℚ)) :
    ∀ (cs : List ArticleCluster) (rs ss ds es gs : List ℚ) (sc : ScoredCluster),
      sc ∈ buildScored w cs rs ss ds es gs →
        sc.signals.keyword_relevance ∈ rs ∧ sc.signals.cluster_size ∈ ss ∧
        sc.signals.source_diversity ∈ ds ∧ sc.signals.recency ∈ es ∧
        sc.signals.geo_spread ∈ gs := by
  intro cs
  induction cs with
  | nil => intro rs ss ds es gs sc h; simp [buildScored] at h
  | cons c cs ih =>
    intro rs ss ds es gs sc h
    cases rs with
    | nil => simp [buildScored] at h
    | cons r rs =>
      cases ss with
      | nil => simp [buildScored] at h
      | cons s ss =>
        cases ds with
        | nil => simp [buildScored] at h
        | cons d ds =>
          cases es with
          | nil => simp [buildScored] at h
          | cons e es =>
            cases gs with
            | nil => simp [buildScored] at h
            | cons g gs =>
              rw [buildScored] at h
              rcases List.mem_cons.mp h with heq | hmem
              · subst heq
                exact ⟨List.mem_cons_self r rs, List.mem_cons_self s ss,
                  List.mem_cons_self d ds, List.mem_cons_self e es,
                  List.mem_cons_self g gs⟩
              · obtain ⟨h1, h2, h3, h4, h5⟩ := ih rs ss ds es gs sc hmem
                exact ⟨List.mem_cons_of_mem r h1, List.mem_cons_of_mem s h2,
                  List.mem_cons_of_mem d h3, List.mem_cons_of_mem e h4,
                  List.mem_cons_of_mem g h5⟩

/-- The score of each scored cluster assembled by buildScored is the
weighted sum of its own five signal values. -/
theorem buildScored_score_formula (w : List (List Char × ℚ)) :
    ∀ (cs : List ArticleCluster) (rs ss ds es gs : List ℚ) (sc : ScoredCluster),
      sc ∈ buildScored w cs rs ss ds es gs →
        sc.score = sc.signals.keyword_relevance * wget w "keyword_relevance".data +
          sc.signals.cluster_size * wget w "cluster_size".data +
          sc.signals.source_diversity * wget w "source_diversity".data +
          sc.signals.recency * wget w "recency".data +
          sc.signals.geo_spread * wget w "geo_spread".data := by
  intro cs
  induction cs with
  | nil => intro rs ss ds es gs sc h; simp [buildScored] at h
  | cons c cs ih =>
    intro rs ss ds es gs sc h
    cases rs with
    | nil => simp [buildScored] at h
    | cons r rs =>
      cases ss with
      | nil => simp [buildScored] at h
      | cons s ss =>
        cases ds with
        | nil => simp [buildScored] at h
        | cons d ds =>
          cases es with
          | nil => simp [buildScored] at h
          | cons e es =>
            cases gs with
            | nil => simp [buildScored] at h
            | cons g gs =>
              rw [buildScored] at h
              rcases List.mem_cons.mp h with heq | hmem
              · subst heq; rfl
              · exact ih rs ss ds es gs sc hmem

/-- Unfolding of scoreClustersPre on a nonempty batch. -/
theorem scoreClustersPre_eq (clusters : List ArticleCluster)
    (weights : Option (List (List Char × ℚ)))
    (pd : Option (List Char) → Option ℚ) (now : ℚ) (kw : List (List Char))
    (hne : clusters ≠ []) :
    scoreClustersPre clusters weights pd now kw =
      buildScored (resolveWeights weights) clusters
        (pyNormalize ((rawSignalsList clusters now kw pd).map
          (fun r => r.keyword_relevance)) false)
        (pyNormalize ((rawSignalsList clusters now kw pd).map
          (fun r => r.cluster_size)) false)
        (pyNormalize ((rawSignalsList clusters now kw pd).map
          (fun r => r.source_diversity)) false)
        (pyNormalize ((rawSignalsList clusters now kw pd).map
          (fun r => r.recency_hours_ago)) true)
        (pyNormalize ((rawSignalsList clusters now kw pd).map
          (fun r => r.geo_spread)) false) := by
  rw [scoreClustersPre, if_neg hne]

/- ## Claim C5 -/

/-- Claim C5: every normalized signal value carried by a scored cluster
returned by score_clusters lies in the closed unit interval, and for
each signal whose raw values coincide across the whole batch (max equal
to min) every returned cluster carries exactly 1 for that signal —
including recency, whose inversion is skipped by the early degenerate
return. -/
theorem score_signals_normalized_bounds (clusters : List ArticleCluster)
    (weights : Option (List (List Char × ℚ)))
    (pd : Option (List Char) → Option ℚ) (now : ℚ) (kw : List (List Char))
    (sc : ScoredCluster)
    (hmem : sc ∈ score_clusters clusters weights pd now kw) :
    ((0 ≤ sc.signals.keyword_relevance ∧ sc.signals.keyword_relevance ≤ 1) ∧
     (0 ≤ sc.signals.cluster_size ∧ sc.signals.cluster_size ≤ 1) ∧
     (0 ≤ sc.signals.source_diversity ∧ sc.signals.source_diversity ≤ 1) ∧
     (0 ≤ sc.signals.recency ∧ sc.signals.recency ≤ 1) ∧
     (0 ≤ sc.signals.geo_spread ∧ sc.signals.geo_spread ≤ 1)) ∧
    ((pyMax ((rawSignalsList clusters now kw pd).map (fun r => r.keyword_relevance)) =
        pyMin ((rawSignalsList clusters now kw pd).map (fun r => r.keyword_relevance)) →
      sc.signals.keyword_relevance = 1) ∧
     (pyMax ((rawSignalsList clusters now kw pd).map (fun r => r.cluster_size)) =
        pyMin ((rawSignalsList clusters now kw pd).map (fun r => r.cluster_size)) →
      sc.signals.cluster_size = 1) ∧
     (pyMax ((rawSignalsList clusters now kw pd).map (fun r => r.source_diversity)) =
        pyMin ((rawSignalsList clusters now kw pd).map (fun r => r.source_diversity)) →
      sc.signals.source_diversity = 1) ∧
     (pyMax ((rawSignalsList clusters now kw pd).map (fun r => r.recency_hours_ago)) =
        pyMin ((rawSignalsList clusters now kw pd).map (fun r => r.recency_hours_ago)) →
      sc.signals.recency = 1) ∧
     (pyMax ((rawSignalsList clusters now kw pd).map (fun r => r.geo_spread)) =
        pyMin ((rawSignalsList clusters now kw pd).map (fun r => r.geo_spread)) →
      sc.signals.geo_spread = 1)) := by
  have hpre : sc ∈ scoreClustersPre clusters weights pd now kw :=
    (List.perm_insertionSort scoreGe _).mem_iff.mp hmem
  by_cases hne : clusters = []
  · rw [hne] at hpre
    simp [scoreClustersPre] at hpre
  · rw [scoreClustersPre_eq clusters weights pd now kw hne] at hpre
    obtain ⟨h1, h2, h3, h4, h5⟩ :=
      buildScored_mem_signals (resolveWeights weights) clusters _ _ _ _ _ sc hpre
    refine ⟨⟨pyNormalize_mem_bounds _ _ _ h1, pyNormalize_mem_bounds _ _ _ h2,
      pyNormalize_mem_bounds _ _ _ h3, pyNormalize_mem_bounds _ _ _ h4,
      pyNormalize_mem_bounds _ _ _ h5⟩,
      fun hd => pyNormalize_degenerate _ _ hd _ h1,
      fun hd => pyNormalize_degenerate _ _ hd _ h2,
      fun hd => pyNormalize_degenerate _ _ hd _ h3,
      fun hd => pyNormalize_degenerate _ _ hd _ h4,
      fun hd => pyNormalize_degenerate _ _ hd _ h5⟩


unseal Rat.add Rat.mul Rat.sub Rat.inv in
/-- Witness for claim C5 at a concrete input: the single sample cluster
batch, where every signal is degenerate and so every signal value is
exactly 1 — recency included. -/
theorem score_signals_normalized_bounds_witness :
    ((0 ≤ scoredSample.signals.keyword_relevance ∧
      scoredSample.signals.keyword_relevance ≤ 1) ∧
     (0 ≤ scoredSample.signals.cluster_size ∧ scoredSample.signals.cluster_size ≤ 1) ∧
     (0 ≤ scoredSample.signals.source_diversity ∧
      scoredSample.signals.source_diversity ≤ 1) ∧
     (0 ≤ scoredSample.signals.recency ∧ scoredSample.signals.recency ≤ 1) ∧
     (0 ≤ scoredSample.signals.geo_spread ∧ scoredSample.signals.geo_spread ≤ 1)) ∧
    scoredSample.signals.recency = 1 :=
  ⟨(score_signals_normalized_bounds [clusterSample] none parseNone 0 [] scoredSample
      (by decide)).1,
   (score_signals_normalized_bounds [clusterSample] none parseNone 0 [] scoredSample
      (by decide)).2.2.2.2.1 (by decide)⟩

/- ## Lemmas about sort stability -/

theorem filter_orderedInsert_score (q : ℚ) (x : ScoredCluster) (l : List ScoredCluster) :
    (List.orderedInsert scoreGe x l).filter (fun sc => decide (sc.score = q)) =
      ((x :: l).filter (fun sc => decide (sc.score = q))) := by
  induction l with
  | nil => rfl
  | cons b t ih =>
    by_cases hge : scoreGe x b
    · simp only [List.orderedInsert, if_pos hge]
    · simp only [List.orderedInsert, if_neg hge]
      by_cases hx : x.score = q
      · have hb : ¬ (b.score = q) := by
          intro hbq
          exact hge (by show b.score ≤ x.score; rw [hbq, hx])
        simp [List.filter_cons, hx, hb, ih]
      · simp [List.filter_cons, hx, ih]

theorem filter_insertionSort_score (q : ℚ) (l : List ScoredCluster) :
    (List.insertionSort scoreGe l).filter (fun sc => decide (sc.score = q)) =
      l.filter (fun sc => decide (sc.score = q)) := by
  induction l with
  | nil => rfl
  | cons b t ih =>
    simp only [List.insertionSort]
    rw [filter_orderedInsert_score]
    simp only [List.filter_cons, ih]

/- ## Claim C7 -/

/-- Claim C7: score_clusters returns the assembled scored clusters
sorted by composite score in non-increasing order, and the sort is
stable — for every score value, the returned clusters carrying that
score appear in exactly the pre-sort (input) order. -/
theorem score_sorted_descending_stable (clusters : List ArticleCluster)
    (weights : Option (List (List Char × ℚ)))
    (pd : Option (List Char) → Option ℚ) (now : ℚ) (kw : List (List Char)) :
    List.Sorted scoreGe (score_clusters clusters weights pd now kw) ∧
    ∀ q : ℚ,
      (score_clusters clusters weights pd now kw).filter
        (fun sc => decide (sc.score = q)) =
      (scoreClustersPre clusters weights pd now kw).filter
        (fun sc => decide (sc.score = q)) := by
  constructor
  · exact List.sorted_insertionSort scoreGe _
  · intro q
    exact filter_insertionSort_score q _

/- ## Lemmas about weights lookups -/

/-- Removing entries with a different key from an association list does
not change a lookup. -/
theorem lookup_filter_ne (k k' : List Char) (hne : ¬ (k' = k))
    (w : List (List Char × ℚ)) :
    List.lookup k' (w.filter (fun p => decide (¬ (p.1 = k)))) =
      List.lookup k' w := by
  induction w with
  | nil => rfl
  | cons p rest ih =>
    obtain ⟨a, b⟩ := p
    simp only [decide_not] at ih ⊢
    by_cases ha : a = k
    · subst ha
      have hbeq : (k' == a) = false := beq_eq_false_iff_ne.mpr hne
      simp [List.filter_cons, List.lookup, hbeq, ih]
    · by_cases hk : k' = a
      · subst hk
        simp [List.filter_cons, List.lookup, ha]
      · have hbeq : (k' == a) = false := beq_eq_false_iff_ne.mpr hk
        simp [List.filter_cons, List.lookup, ha, hbeq, ih]

/-- buildScored only consults the weights through the five fixed
lookups. -/
theorem buildScored_congr (w w' : List (List Char × ℚ))
    (h1 : wget w "keyword_relevance".data = wget w' "keyword_relevance".data)
    (h2 : wget w "cluster_size".data = wget w' "cluster_size".data)
    (h3 : wget w "source_diversity".data = wget w' "source_diversity".data)
    (h4 : wget w "recency".data = wget w' "recency".data)
    (h5 : wget w "geo_spread".data = wget w' "geo_spread".data) :
    ∀ (cs : List ArticleCluster) (rs ss ds es gs : List ℚ),
      buildScored w cs rs ss ds es gs = buildScored w' cs rs ss ds es gs := by
  intro cs
  induction cs with
  | nil => intro rs ss ds es gs; rfl
  | cons c cs ih =>
    intro rs ss ds es gs
    cases rs with
    | nil => rfl
    | cons r rs =>
      cases ss with
      | nil => rfl
      | cons s ss =>
        cases ds with
        | nil => rfl
        | cons d ds =>
          cases es with
          | nil => rfl
          | cons e es =>
            cases gs with
            | nil => rfl
            | cons g gs =>
              simp only [buildScored, h1, h2, h3, h4, h5, ih]

/- ## Claim C9 -/

/-- Claim C9 (amended: the weights dict must stay non-empty once the
unknown entry is removed): score_clusters with a weights dict containing
entries under a key that is none of the five signal names returns
exactly the same result as with those entries removed, and the unknown
key never causes an error (the model is total).  When the unknown entry
is the only one, removing it changes the result: the non-empty dict
gives every signal weight 0, while the emptied dict falls back to the
defaults — see the counterexample. -/
theorem score_unknown_key_ignored (clusters : List ArticleCluster)
    (pd : Option (List Char) → Option ℚ) (now : ℚ) (kw : List (List Char))
    (w : List (List Char × ℚ)) (k : List Char)
    (hk : k ∉ ["keyword_relevance".data, "cluster_size".data,
      "source_diversity".data, "recency".data, "geo_spread".data])
    (hne : w.filter (fun p => decide (¬ (p.1 = k))) ≠ []) :
    score_clusters clusters (some w) pd now kw =
      score_clusters clusters
        (some (w.filter (fun p => decide (¬ (p.1 = k))))) pd now kw := by
  have hwne : w ≠ [] := by
    intro hw
    subst hw
    exact hne rfl
  have hres1 : resolveWeights (some w) = w := by
    simp only [resolveWeights, if_neg hwne]
  have hres2 : resolveWeights (some (w.filter (fun p => decide (¬ (p.1 = k))))) =
      w.filter (fun p => decide (¬ (p.1 = k))) := by
    simp only [resolveWeights, if_neg hne]
  have hlook : ∀ k', k' ∈ ["keyword_relevance".data, "cluster_size".data,
      "source_diversity".data, "recency".data, "geo_spread".data] →
      wget w k' = wget (w.filter (fun p => decide (¬ (p.1 = k)))) k' := by
    intro k' hk'
    have hne' : ¬ (k' = k) := by
      intro hkk
      subst hkk
      exact hk hk'
    rw [wget, wget, lookup_filter_ne k k' hne' w]
  unfold score_clusters scoreClustersPre
  by_cases hcl : clusters = []
  · simp [hcl]
  · simp only [if_neg hcl, hres1, hres2]
    rw [buildScored_congr w (w.filter (fun p => decide (¬ (p.1 = k))))
      (hlook _ (by simp)) (hlook _ (by simp)) (hlook _ (by simp))
      (hlook _ (by simp)) (hlook _ (by simp))]

unseal Rat.add Rat.mul Rat.sub Rat.inv in
/-- Witness for claim C9 at a concrete input: a weights dict holding a
real override and a bogus entry gives the same scores once the bogus
entry is dropped. -/
theorem score_unknown_key_ignored_witness :
    score_clusters [clusterSample]
        (some [("cluster_size".data, 2), ("bogus".data, 5)]) parseNone 0 [] =
      score_clusters [clusterSample]
        (some (([("cluster_size".data, 2), ("bogus".data, 5)] :
          List (List Char × ℚ)).filter
            (fun p => decide (¬ (p.1 = "bogus".data))))) parseNone 0 [] :=
  score_unknown_key_ignored [clusterSample] parseNone 0 []
    [("cluster_size".data, 2), ("bogus".data, 5)] "bogus".data
    (by decide) (by decide)

unseal Rat.add Rat.mul Rat.sub Rat.inv in
/-- Counterexample to claim C9 as stated for every weights mapping: when
the unknown entry is the only entry, dropping it empties the dict, which
then falls back to the default weights — the two calls differ (scores 0
versus 1 on the sample batch). -/
theorem score_unknown_key_only_counterexample :
    score_clusters [clusterSample] (some [("bogus".data, 1)]) parseNone 0 [] ≠
      score_clusters [clusterSample]
        (some (([("bogus".data, 1)] : List (List Char × ℚ)).filter
          (fun p => decide (¬ (p.1 = "bogus".data))))) parseNone 0 [] := by
  decide

/- ## Claim C10 -/

/-- Claim C10: passing None or an empty weights dict to score_clusters
uses the full default weights, while any non-empty weights dict is used
as-is — the composite score of every returned cluster is the sum of its
five signal values each multiplied by the dict entry for that signal,
defaulting to 0 for a signal name absent from the dict (defaults are
never merged into a partial override). -/
theorem score_partial_weights_semantics (clusters : List ArticleCluster)
    (pd : Option (List Char) → Option ℚ) (now : ℚ) (kw : List (List Char)) :
    score_clusters clusters none pd now kw =
      score_clusters clusters (some DEFAULT_WEIGHTS) pd now kw ∧
    score_clusters clusters (some []) pd now kw =
      score_clusters clusters (some DEFAULT_WEIGHTS) pd now kw ∧
    (∀ k : List Char, k ∉ DEFAULT_WEIGHTS.map Prod.fst → ∀ w₀ : ℚ, wget [(k, w₀)] "keyword_relevance".data = 0) ∧
    ∀ w : List (List Char × ℚ), w ≠ [] →
      (score_clusters clusters (some w) pd now kw).map (fun sc => sc.score) =
        (score_clusters clusters (some w) pd now kw).map (fun sc =>
          sc.signals.keyword_relevance * wget w "keyword_relevance".data +
          sc.signals.cluster_size * wget w "cluster_size".data +
          sc.signals.source_diversity * wget w "source_diversity".data +
          sc.signals.recency * wget w "recency".data +
          sc.signals.geo_spread * wget w "geo_spread".data) := by
  have hdw : resolveWeights (some DEFAULT_WEIGHTS) = DEFAULT_WEIGHTS := by
    simp [resolveWeights]
  refine ⟨?_, ?_, ?_, ?_⟩
  · unfold score_clusters scoreClustersPre
    rw [show resolveWeights none = DEFAULT_WEIGHTS from rfl, hdw]
  · unfold score_clusters scoreClustersPre
    rw [show resolveWeights (some []) = DEFAULT_WEIGHTS from rfl, hdw]
  · intro k hk w₀
    have : ¬ ("keyword_relevance".data = k) := by
      intro h
      exact hk (by simp [DEFAULT_WEIGHTS, ← h])
    simp [wget, List.lookup, beq_eq_false_iff_ne.mpr this]
  · intro w hwne
    apply List.map_congr_left
    intro sc hsc
    have hpre : sc ∈ scoreClustersPre clusters (some w) pd now kw :=
      (List.perm_insertionSort scoreGe _).mem_iff.mp hsc
    by_cases hcl : clusters = []
    · rw [hcl] at hpre
      simp [scoreClustersPre] at hpre
    · rw [scoreClustersPre_eq clusters (some w) pd now kw hcl] at hpre
      have hres : resolveWeights (some w) = w := by
        simp only [resolveWeights, if_neg hwne]
      rw [hres] at hpre
      exact buildScored_score_formula w clusters _ _ _ _ _ sc hpre

unseal Rat.add Rat.mul Rat.sub Rat.inv in
/-- Witness for claim C10 at a concrete input: the sample batch scored
with a partial override containing only cluster_size; the other four
signals contribute weight 0. -/
theorem score_partial_weights_semantics_witness :
    (score_clusters [clusterSample] none parseNone 0 [] =
      score_clusters [clusterSample] (some DEFAULT_WEIGHTS) parseNone 0 []) ∧
    (score_clusters [clusterSample]
        (some [("cluster_size".data, 2)]) parseNone 0 []).map (fun sc => sc.score) =
      (score_clusters [clusterSample]
        (some [("cluster_size".data, 2)]) parseNone 0 []).map (fun sc =>
          sc.signals.keyword_relevance * wget [("cluster_size".data, 2)] "keyword_relevance".data +
          sc.signals.cluster_size * wget [("cluster_size".data, 2)] "cluster_size".data +
          sc.signals.source_diversity * wget [("cluster_size".data, 2)] "source_diversity".data +
          sc.signals.recency * wget [("cluster_size".data, 2)] "recency".data +
          sc.signals.geo_spread * wget [("cluster_size".data, 2)] "geo_spread".data) :=
  ⟨(score_partial_weights_semantics [clusterSample] parseNone 0 []).1,
   (score_partial_weights_semantics [clusterSample] parseNone 0 []).2.2.2
     [("cluster_size".data, 2)] (by decide)⟩
